import Mathlib

/-!
Verification of the grok pattern compiler.

Rust strings (`&str`) are modelled as `List Char`; byte positions (as produced
by `CharIndices`) are tracked with `Char.utf8Size`.  Maps (`HashMap`,
`BTreeMap`) are modelled as association lists; the `BTreeMap` used for the
backend name table is kept sorted by key via ordered insertion.
-/

set_option autoImplicit false

namespace Grok

/-- Total UTF-8 byte length of a character list (Rust `str::len`). -/
def utf8Len (l : List Char) : Nat := (l.map Char.utf8Size).sum

@[simp] theorem utf8Len_nil : utf8Len [] = 0 := rfl

@[simp] theorem utf8Len_cons (c : Char) (l : List Char) :
    utf8Len (c :: l) = c.utf8Size + utf8Len l := by
  simp [utf8Len]

@[simp] theorem utf8Len_append (a b : List Char) :
    utf8Len (a ++ b) = utf8Len a + utf8Len b := by
  simp [utf8Len]

theorem utf8Size_pos (c : Char) : 0 < c.utf8Size := Char.utf8Size_pos c

/-! ## Scanner (src/pattern_parser.rs) -/

/-- Mirrors `GrokPatternError` in `pattern_parser.rs`. -/
inductive GrokPatternError where
  | invalidCharacter (c : Char)
  | invalidPattern
  | invalidPatternDefinition
  deriving DecidableEq, Repr

/-- Mirrors `GrokComponent` in `pattern_parser.rs`.  The `&str` slices held by
the Rust enum are modelled as the lists of characters they denote; `range` is
the byte range in the source. -/
inductive GrokComponent where
  | regularExpression (range : Nat × Nat) (string : List Char)
  | grokPattern (range : Nat × Nat)
      (pattern name aliasName extract definition : List Char)
  | patternError (e : GrokPatternError)
  deriving DecidableEq, Repr

namespace GrokComponent

/-- The text chunk carried by a component (`string` / `pattern`). -/
def text : GrokComponent → List Char
  | regularExpression _ s => s
  | grokPattern _ p _ _ _ _ => p
  | patternError _ => []

/-- The byte range carried by a component (error components carry none). -/
def range : GrokComponent → Nat × Nat
  | regularExpression r _ => r
  | grokPattern r _ _ _ _ _ => r
  | patternError _ => (0, 0)

/-- Whether the component is a `PatternError`. -/
def isError : GrokComponent → Bool
  | patternError _ => true
  | _ => false

end GrokComponent

/-- Word terminators in a placeholder (`'}'`, `'='`, `':'`). -/
def isTerminator (c : Char) : Bool := c = '}' || c = '=' || c = ':'

/-- Character class test of `try_munch_word`: ASCII alphanumerics and `'_'`
always; additionally `'-'`, `'['`, `']'`, `'.'` in the alias/extract slots. -/
def isWordChar (isAliasOrCapture : Bool) (c : Char) : Bool :=
  c.isAlphanum || c = '_' ||
    (isAliasOrCapture && (c = '-' || c = '[' || c = ']' || c = '.'))

/-- Core loop of `try_munch_word`: peeks characters until a terminator,
checking the character class.  Returns the terminator, the word, the byte
position of the terminator and the remaining input, which still starts with
the terminator (it was peeked, not consumed). -/
def tryMunchWordAux (isAC : Bool) (pos : Nat) :
    List Char → Except GrokPatternError (Char × List Char × Nat × List Char)
  | [] => .error .invalidPattern
  | c :: rest =>
    if isTerminator c then .ok (c, [], pos, c :: rest)
    else if isWordChar isAC c then
      match tryMunchWordAux isAC (pos + c.utf8Size) rest with
      | .ok (t, w, p, r) => .ok (t, c :: w, p, r)
      | .error e => .error e
    else .error (.invalidCharacter c)

/-- `try_munch_word`: the core loop plus the final empty-word check (`end ==
start` with a strict first slot is `InvalidPattern`). -/
def tryMunchWord (isAC : Bool) (pos : Nat) (l : List Char) :
    Except GrokPatternError (Char × List Char × Nat × List Char) :=
  match tryMunchWordAux isAC pos l with
  | .ok (t, w, p, r) =>
    if w = [] ∧ isAC = false then .error .invalidPattern else .ok (t, w, p, r)
  | .error e => .error e

/-- The `'='` branch of `try_next`: consume up to the closing `'}'`,
rejecting end of string and `'{'`.  Returns the definition text, the byte
position of the closing `'}'` and the input after it. -/
def scanDefinition (pos : Nat) :
    List Char → Option (List Char × Nat × List Char)
  | [] => none
  | c :: rest =>
    if c = '{' then none
    else if c = '}' then some ([], pos, rest)
    else match scanDefinition (pos + c.utf8Size) rest with
      | some (d, p, r) => some (c :: d, p, r)
      | none => none

/-- The literal-accumulation loop at the bottom of `try_next`: munch until end
of string or the next `'%'` (which is peeked, not consumed). -/
def munchLiteral (pos : Nat) : List Char → List Char × Nat × List Char
  | [] => ([], pos, [])
  | c :: rest =>
    if c = '%' then ([], pos, c :: rest)
    else
      let (w, p, r) := munchLiteral (pos + c.utf8Size) rest
      (c :: w, p, r)

/-- Result of one `try_next` step.  `panicked` models the `unwrap()` executed
after a word is munched failing (the claim is that this is unreachable). -/
inductive ScanRes where
  | done
  | panicked
  | tok (c : GrokComponent) (pos : Nat) (rest : List Char)
  deriving DecidableEq, Repr

/-- Placeholder mode of `try_next` (after `%{` was consumed), with the
three-word loop unrolled (`comp_index` takes the values 0, 1, 2, 3).
`start` is the byte position of the `'%'`, `pos` the position after `%{`.
Each `unwrap()` that consumes a peeked terminator is modelled by a match
whose empty branch yields `panicked`. -/
def parsePlaceholder (start pos : Nat) (l : List Char) : ScanRes :=
  match tryMunchWord false pos l with
  | .error e => .tok (.patternError e) pos l
  | .ok (t1, w1, p1, r1) =>
    match r1 with
    | [] => .panicked
    | _ :: r1' =>
      if t1 = '}' then
        .tok (.grokPattern (start, p1 + 1) ('%' :: '{' :: (w1 ++ [t1]))
          w1 [] [] []) (p1 + 1) r1'
      else if t1 = '=' then
        match scanDefinition (p1 + 1) r1' with
        | none => .tok (.patternError .invalidPatternDefinition) (p1 + 1) r1'
        | some (d, p2, r2) =>
          if d = [] then .tok (.patternError .invalidPatternDefinition) (p2 + 1) r2
          else
            .tok (.grokPattern (start, p2 + 1)
              ('%' :: '{' :: (w1 ++ t1 :: (d ++ ['}']))) w1 [] [] d) (p2 + 1) r2
      else
        match tryMunchWord true (p1 + 1) r1' with
        | .error e => .tok (.patternError e) (p1 + 1) r1'
        | .ok (t2, w2, p2, r2) =>
          match r2 with
          | [] => .panicked
          | _ :: r2' =>
            if t2 = '}' then
              if w2 = [] then
                .tok (.patternError .invalidPatternDefinition) (p2 + 1) r2'
              else
                .tok (.grokPattern (start, p2 + 1)
                  ('%' :: '{' :: (w1 ++ t1 :: (w2 ++ [t2]))) w1 w2 [] [])
                  (p2 + 1) r2'
            else if t2 = '=' then
              match scanDefinition (p2 + 1) r2' with
              | none => .tok (.patternError .invalidPatternDefinition) (p2 + 1) r2'
              | some (d, p3, r3) =>
                if d = [] then
                  .tok (.patternError .invalidPatternDefinition) (p3 + 1) r3
                else if w2 = [] then
                  .tok (.patternError .invalidPatternDefinition) (p3 + 1) r3
                else
                  .tok (.grokPattern (start, p3 + 1)
                    ('%' :: '{' :: (w1 ++ t1 :: (w2 ++ t2 :: (d ++ ['}']))))
                    w1 w2 [] d) (p3 + 1) r3
            else
              match tryMunchWord true (p2 + 1) r2' with
              | .error e => .tok (.patternError e) (p2 + 1) r2'
              | .ok (t3, w3, p3, r3) =>
                match r3 with
                | [] => .panicked
                | _ :: r3' =>
                  if w3 = [] then
                    .tok (.patternError .invalidPatternDefinition) (p3 + 1) r3'
                  else if t3 = '}' then
                    .tok (.grokPattern (start, p3 + 1)
                      ('%' :: '{' :: (w1 ++ t1 :: (w2 ++ t2 :: (w3 ++ [t3]))))
                      w1 w2 w3 []) (p3 + 1) r3'
                  else if t3 = '=' then
                    match scanDefinition (p3 + 1) r3' with
                    | none =>
                      .tok (.patternError .invalidPatternDefinition) (p3 + 1) r3'
                    | some (d, p4, r4) =>
                      if d = [] then
                        .tok (.patternError .invalidPatternDefinition) (p4 + 1) r4
                      else
                        .tok (.grokPattern (start, p4 + 1)
                          ('%' :: '{' ::
                            (w1 ++ t1 :: (w2 ++ t2 :: (w3 ++ t3 :: (d ++ ['}'])))))
                          w1 w2 w3 d) (p4 + 1) r4
                  else
                    match tryMunchWord true (p3 + 1) r3' with
                    | .error e => .tok (.patternError e) (p3 + 1) r3'
                    | .ok _ => .tok (.patternError .invalidPattern) (p3 + 1) r3'

/-- `GrokSplit::try_next`: one scanner step at byte position `pos`. -/
def tryNext (pos : Nat) (l : List Char) : ScanRes :=
  match l with
  | [] => .done
  | c0 :: rest =>
    if c0 = '%' then
      match rest with
      | [] => .tok (.regularExpression (pos, pos + c0.utf8Size) [c0])
          (pos + c0.utf8Size) []
      | c1 :: rest1 =>
        if c1 = '{' then
          parsePlaceholder pos (pos + c0.utf8Size + c1.utf8Size) rest1
        else
          let (w, p, r) := munchLiteral (pos + c0.utf8Size + c1.utf8Size) rest1
          .tok (.regularExpression (pos, p) (c0 :: c1 :: w)) p r
    else
      let (w, p, r) := munchLiteral (pos + c0.utf8Size) rest
      .tok (.regularExpression (pos, p) (c0 :: w)) p r

/-! ### Consumption lemmas for the scanner helpers -/

@[simp] theorem utf8Size_rbrace : ('}' : Char).utf8Size = 1 := rfl
@[simp] theorem utf8Size_eqSign : ('=' : Char).utf8Size = 1 := rfl
@[simp] theorem utf8Size_colon : (':' : Char).utf8Size = 1 := rfl
@[simp] theorem utf8Size_percent : ('%' : Char).utf8Size = 1 := rfl
@[simp] theorem utf8Size_lbrace : ('{' : Char).utf8Size = 1 := rfl

theorem terminator_utf8Size {t : Char} (h : isTerminator t = true) :
    t.utf8Size = 1 := by
  simp only [isTerminator, Bool.or_eq_true, decide_eq_true_eq] at h
  rcases h with (h | h) | h <;> subst h <;> rfl

theorem tryMunchWordAux_ok {isAC : Bool} {t : Char} {w r : List Char}
    {pos p : Nat} {l : List Char}
    (h : tryMunchWordAux isAC pos l = .ok (t, w, p, r)) :
    l = w ++ r ∧ p = pos + utf8Len w ∧ isTerminator t = true ∧
      ∃ r', r = t :: r' := by
  induction l generalizing pos w with
  | nil => simp [tryMunchWordAux] at h
  | cons c cs ih =>
    unfold tryMunchWordAux at h
    by_cases hterm : isTerminator c
    · simp only [hterm, if_true] at h
      obtain ⟨hc, hw, hp, hr⟩ := by simpa using h
      subst hc; subst hw; subst hp; subst hr
      exact ⟨rfl, by simp, hterm, cs, rfl⟩
    · simp only [hterm, if_false] at h
      by_cases hword : isWordChar isAC c
      · simp only [hword, if_true] at h
        cases h' : tryMunchWordAux isAC (pos + c.utf8Size) cs with
        | ok q =>
          obtain ⟨t', w', p', r'⟩ := q
          rw [h'] at h
          obtain ⟨ht, hw, hp, hr⟩ := by simpa using h
          subst ht; subst hp; subst hr
          obtain ⟨h1, h2, h3, h4⟩ := ih h'
          subst hw
          refine ⟨by simp [h1], ?_, h3, h4⟩
          simp [h2]; omega
        | error e => rw [h'] at h; simp at h
      · simp [hword] at h

theorem tryMunchWord_ok {isAC : Bool} {t : Char} {w r : List Char}
    {pos p : Nat} {l : List Char}
    (h : tryMunchWord isAC pos l = .ok (t, w, p, r)) :
    l = w ++ r ∧ p = pos + utf8Len w ∧ isTerminator t = true ∧
      ∃ r', r = t :: r' := by
  unfold tryMunchWord at h
  cases h' : tryMunchWordAux isAC pos l with
  | ok q =>
    obtain ⟨t', w', p', r'⟩ := q
    rw [h'] at h
    dsimp only at h
    split at h
    · exact Except.noConfusion h
    · simp only [Except.ok.injEq, Prod.mk.injEq] at h
      obtain ⟨ht, hw, hp, hr⟩ := h
      subst ht; subst hw; subst hp; subst hr
      exact tryMunchWordAux_ok h'
  | error e => rw [h'] at h; exact Except.noConfusion h

theorem scanDefinition_ok {pos p : Nat} {l d r : List Char}
    (h : scanDefinition pos l = some (d, p, r)) :
    l = d ++ '}' :: r ∧ p = pos + utf8Len d := by
  induction l generalizing pos d with
  | nil => simp [scanDefinition] at h
  | cons c cs ih =>
    unfold scanDefinition at h
    by_cases hb : c = '{'
    · simp [hb] at h
    · simp only [hb, if_false] at h
      by_cases hc : c = '}'
      · simp only [hc, if_true] at h
        obtain ⟨hd, hp, hr⟩ := by simpa using h
        subst hd; subst hp; subst hr
        exact ⟨by simp [hc], by simp⟩
      · simp only [hc, if_false] at h
        cases h' : scanDefinition (pos + c.utf8Size) cs with
        | some q =>
          obtain ⟨d', p', r'⟩ := q
          rw [h'] at h
          obtain ⟨hd, hp, hr⟩ := by simpa using h
          subst hp; subst hr
          obtain ⟨h1, h2⟩ := ih h'
          subst hd
          refine ⟨by simp [h1], ?_⟩
          simp [h2]; omega
        | none => rw [h'] at h; simp at h

theorem munchLiteral_eq {pos p : Nat} {l w r : List Char}
    (h : munchLiteral pos l = (w, p, r)) :
    l = w ++ r ∧ p = pos + utf8Len w := by
  induction l generalizing pos w with
  | nil =>
    obtain ⟨hw, hp, hr⟩ := by simpa [munchLiteral] using h
    subst hw; subst hp; subst hr
    simp
  | cons c cs ih =>
    unfold munchLiteral at h
    by_cases hc : c = '%'
    · simp only [hc, if_true] at h
      obtain ⟨hw, hp, hr⟩ := by simpa using h
      subst hw; subst hp; subst hr
      exact ⟨by simp [hc], by simp⟩
    · simp only [hc, if_false] at h
      cases h' : munchLiteral (pos + c.utf8Size) cs with
      | mk w' q =>
        obtain ⟨p', r'⟩ := q
        rw [h'] at h
        obtain ⟨hw, hp, hr⟩ := by simpa using h
        subst hp; subst hr
        obtain ⟨h1, h2⟩ := ih h'
        subst hw
        refine ⟨by simp [h1], ?_⟩
        simp [h2]; omega

theorem parsePlaceholder_spec (start pos : Nat) (l : List Char) :
    parsePlaceholder start pos l ≠ .panicked ∧
    ∀ c p r, parsePlaceholder start pos l = .tok c p r →
      r.length ≤ l.length ∧
      (c.isError = false →
        ∃ w, l = w ++ r ∧ c.text = '%' :: '{' :: w ∧
          p = pos + utf8Len w ∧ c.range = (start, p)) := by
  unfold parsePlaceholder
  cases h1 : tryMunchWord false pos l with
  | error e =>
    try dsimp only
    refine ⟨by simp, ?_⟩
    intro c p r h
    simp only [ScanRes.tok.injEq] at h
    obtain ⟨hc, hp, hr⟩ := h
    subst hc; subst hp; subst hr
    exact ⟨le_refl _, by simp [GrokComponent.isError]⟩
  | ok q =>
    obtain ⟨t1, w1, p1, r1⟩ := q
    obtain ⟨hl1, hp1, hterm1, r1', hr1⟩ := tryMunchWord_ok h1
    subst hr1
    have hsz1 : t1.utf8Size = 1 := terminator_utf8Size hterm1
    have hlen1 : l.length = w1.length + 1 + r1'.length := by
      simp [hl1]; omega
    dsimp only
    by_cases ht1 : t1 = '}'
    · rw [if_pos ht1]
      try dsimp only
      refine ⟨by simp, ?_⟩
      intro c p r h
      simp only [ScanRes.tok.injEq] at h
      obtain ⟨hc, hp, hr⟩ := h
      subst hc; subst hp; subst hr
      refine ⟨by omega, fun _ => ⟨w1 ++ [t1], by simp [hl1], rfl, ?_, rfl⟩⟩
      simp [hp1, hsz1]; omega
    · rw [if_neg ht1]
      by_cases ht1e : t1 = '='
      · rw [if_pos ht1e]
        cases h2 : scanDefinition (p1 + 1) r1' with
        | none =>
          try dsimp only
          refine ⟨by simp, ?_⟩
          intro c p r h
          simp only [ScanRes.tok.injEq] at h
          obtain ⟨hc, hp, hr⟩ := h
          subst hc; subst hp; subst hr
          exact ⟨by omega, by simp [GrokComponent.isError]⟩
        | some q2 =>
          obtain ⟨d, p2, r2⟩ := q2
          obtain ⟨hd, hp2⟩ := scanDefinition_ok h2
          have hlen2 : r1'.length = d.length + 1 + r2.length := by
            simp [hd]; omega
          try dsimp only
          by_cases hdnil : d = []
          · rw [if_pos hdnil]
            try dsimp only
            refine ⟨by simp, ?_⟩
            intro c p r h
            simp only [ScanRes.tok.injEq] at h
            obtain ⟨hc, hp, hr⟩ := h
            subst hc; subst hp; subst hr
            exact ⟨by omega, by simp [GrokComponent.isError]⟩
          · rw [if_neg hdnil]
            try dsimp only
            refine ⟨by simp, ?_⟩
            intro c p r h
            simp only [ScanRes.tok.injEq] at h
            obtain ⟨hc, hp, hr⟩ := h
            subst hc; subst hp; subst hr
            refine ⟨by omega,
              fun _ => ⟨w1 ++ t1 :: (d ++ ['}']), ?_, rfl, ?_, rfl⟩⟩
            · simp [hl1, hd]
            · simp [GrokComponent.text, hp1, hp2, hsz1]; omega
      · rw [if_neg ht1e]
        cases h2 : tryMunchWord true (p1 + 1) r1' with
        | error e =>
          try dsimp only
          refine ⟨by simp, ?_⟩
          intro c p r h
          simp only [ScanRes.tok.injEq] at h
          obtain ⟨hc, hp, hr⟩ := h
          subst hc; subst hp; subst hr
          exact ⟨by omega, by simp [GrokComponent.isError]⟩
        | ok q2 =>
          obtain ⟨t2, w2, p2, r2⟩ := q2
          obtain ⟨hl2, hp2, hterm2, r2', hr2⟩ := tryMunchWord_ok h2
          subst hr2
          have hsz2 : t2.utf8Size = 1 := terminator_utf8Size hterm2
          have hlen2 : r1'.length = w2.length + 1 + r2'.length := by
            simp [hl2]; omega
          dsimp only
          by_cases ht2 : t2 = '}'
          · rw [if_pos ht2]
            by_cases hw2 : w2 = []
            · rw [if_pos hw2]
              try dsimp only
              refine ⟨by simp, ?_⟩
              intro c p r h
              simp only [ScanRes.tok.injEq] at h
              obtain ⟨hc, hp, hr⟩ := h
              subst hc; subst hp; subst hr
              exact ⟨by omega, by simp [GrokComponent.isError]⟩
            · rw [if_neg hw2]
              try dsimp only
              refine ⟨by simp, ?_⟩
              intro c p r h
              simp only [ScanRes.tok.injEq] at h
              obtain ⟨hc, hp, hr⟩ := h
              subst hc; subst hp; subst hr
              refine ⟨by omega,
                fun _ => ⟨w1 ++ t1 :: (w2 ++ [t2]), ?_, rfl, ?_, rfl⟩⟩
              · simp [hl1, hl2]
              · simp [GrokComponent.text, hp1, hp2, hsz1, hsz2]; omega
          · rw [if_neg ht2]
            by_cases ht2e : t2 = '='
            · rw [if_pos ht2e]
              cases h3 : scanDefinition (p2 + 1) r2' with
              | none =>
                try dsimp only
                refine ⟨by simp, ?_⟩
                intro c p r h
                simp only [ScanRes.tok.injEq] at h
                obtain ⟨hc, hp, hr⟩ := h
                subst hc; subst hp; subst hr
                exact ⟨by omega, by simp [GrokComponent.isError]⟩
              | some q3 =>
                obtain ⟨d, p3, r3⟩ := q3
                obtain ⟨hd, hp3⟩ := scanDefinition_ok h3
                have hlen3 : r2'.length = d.length + 1 + r3.length := by
                  simp [hd]; omega
                try dsimp only
                by_cases hdnil : d = []
                · rw [if_pos hdnil]
                  try dsimp only
                  refine ⟨by simp, ?_⟩
                  intro c p r h
                  simp only [ScanRes.tok.injEq] at h
                  obtain ⟨hc, hp, hr⟩ := h
                  subst hc; subst hp; subst hr
                  exact ⟨by omega, by simp [GrokComponent.isError]⟩
                · rw [if_neg hdnil]
                  by_cases hw2 : w2 = []
                  · rw [if_pos hw2]
                    try dsimp only
                    refine ⟨by simp, ?_⟩
                    intro c p r h
                    simp only [ScanRes.tok.injEq] at h
                    obtain ⟨hc, hp, hr⟩ := h
                    subst hc; subst hp; subst hr
                    exact ⟨by omega, by simp [GrokComponent.isError]⟩
                  · rw [if_neg hw2]
                    try dsimp only
                    refine ⟨by simp, ?_⟩
                    intro c p r h
                    simp only [ScanRes.tok.injEq] at h
                    obtain ⟨hc, hp, hr⟩ := h
                    subst hc; subst hp; subst hr
                    refine ⟨by omega,
                      fun _ =>
                        ⟨w1 ++ t1 :: (w2 ++ t2 :: (d ++ ['}'])), ?_, rfl, ?_, rfl⟩⟩
                    · simp [hl1, hl2, hd]
                    · simp [GrokComponent.text, hp1, hp2, hp3, hsz1, hsz2]
                      omega
            · rw [if_neg ht2e]
              cases h3 : tryMunchWord true (p2 + 1) r2' with
              | error e =>
                try dsimp only
                refine ⟨by simp, ?_⟩
                intro c p r h
                simp only [ScanRes.tok.injEq] at h
                obtain ⟨hc, hp, hr⟩ := h
                subst hc; subst hp; subst hr
                exact ⟨by omega, by simp [GrokComponent.isError]⟩
              | ok q3 =>
                obtain ⟨t3, w3, p3, r3⟩ := q3
                obtain ⟨hl3, hp3, hterm3, r3', hr3⟩ := tryMunchWord_ok h3
                subst hr3
                have hsz3 : t3.utf8Size = 1 := terminator_utf8Size hterm3
                have hlen3 : r2'.length = w3.length + 1 + r3'.length := by
                  simp [hl3]; omega
                dsimp only
                by_cases hw3 : w3 = []
                · rw [if_pos hw3]
                  try dsimp only
                  refine ⟨by simp, ?_⟩
                  intro c p r h
                  simp only [ScanRes.tok.injEq] at h
                  obtain ⟨hc, hp, hr⟩ := h
                  subst hc; subst hp; subst hr
                  exact ⟨by omega, by simp [GrokComponent.isError]⟩
                · rw [if_neg hw3]
                  by_cases ht3 : t3 = '}'
                  · rw [if_pos ht3]
                    try dsimp only
                    refine ⟨by simp, ?_⟩
                    intro c p r h
                    simp only [ScanRes.tok.injEq] at h
                    obtain ⟨hc, hp, hr⟩ := h
                    subst hc; subst hp; subst hr
                    refine ⟨by omega,
                      fun _ =>
                        ⟨w1 ++ t1 :: (w2 ++ t2 :: (w3 ++ [t3])), ?_, rfl, ?_, rfl⟩⟩
                    · simp [hl1, hl2, hl3]
                    · simp [GrokComponent.text, hp1, hp2, hp3, hsz1, hsz2, hsz3]
                      omega
                  · rw [if_neg ht3]
                    by_cases ht3e : t3 = '='
                    · rw [if_pos ht3e]
                      cases h4 : scanDefinition (p3 + 1) r3' with
                      | none =>
                        try dsimp only
                        refine ⟨by simp, ?_⟩
                        intro c p r h
                        simp only [ScanRes.tok.injEq] at h
                        obtain ⟨hc, hp, hr⟩ := h
                        subst hc; subst hp; subst hr
                        exact ⟨by omega, by simp [GrokComponent.isError]⟩
                      | some q4 =>
                        obtain ⟨d, p4, r4⟩ := q4
                        obtain ⟨hd, hp4⟩ := scanDefinition_ok h4
                        have hlen4 : r3'.length = d.length + 1 + r4.length := by
                          simp [hd]; omega
                        try dsimp only
                        by_cases hdnil : d = []
                        · rw [if_pos hdnil]
                          try dsimp only
                          refine ⟨by simp, ?_⟩
                          intro c p r h
                          simp only [ScanRes.tok.injEq] at h
                          obtain ⟨hc, hp, hr⟩ := h
                          subst hc; subst hp; subst hr
                          exact ⟨by omega, by simp [GrokComponent.isError]⟩
                        · rw [if_neg hdnil]
                          try dsimp only
                          refine ⟨by simp, ?_⟩
                          intro c p r h
                          simp only [ScanRes.tok.injEq] at h
                          obtain ⟨hc, hp, hr⟩ := h
                          subst hc; subst hp; subst hr
                          refine ⟨by omega,
                            fun _ =>
                              ⟨w1 ++ t1 :: (w2 ++ t2 :: (w3 ++ t3 :: (d ++ ['}']))),
                                ?_, rfl, ?_, rfl⟩⟩
                          · simp [hl1, hl2, hl3, hd]
                          · simp [GrokComponent.text, hp1, hp2, hp3, hp4,
                              hsz1, hsz2, hsz3]
                            omega
                    · rw [if_neg ht3e]
                      cases h4 : tryMunchWord true (p3 + 1) r3' with
                      | error e =>
                        try dsimp only
                        refine ⟨by simp, ?_⟩
                        intro c p r h
                        simp only [ScanRes.tok.injEq] at h
                        obtain ⟨hc, hp, hr⟩ := h
                        subst hc; subst hp; subst hr
                        exact ⟨by omega, by simp [GrokComponent.isError]⟩
                      | ok q4 =>
                        try dsimp only
                        refine ⟨by simp, ?_⟩
                        intro c p r h
                        simp only [ScanRes.tok.injEq] at h
                        obtain ⟨hc, hp, hr⟩ := h
                        subst hc; subst hp; subst hr
                        exact ⟨by omega, by simp [GrokComponent.isError]⟩

theorem parsePlaceholder_ne_done (start pos : Nat) (l : List Char) :
    parsePlaceholder start pos l ≠ .done := by
  intro h
  unfold parsePlaceholder at h
  repeat' split at h
  all_goals exact ScanRes.noConfusion h

theorem tryNext_spec (pos : Nat) (l : List Char) :
    tryNext pos l ≠ .panicked ∧
    (tryNext pos l = .done → l = []) ∧
    ∀ c p r, tryNext pos l = .tok c p r →
      r.length < l.length ∧
      (c.isError = false →
        ∃ w, l = w ++ r ∧ c.text = w ∧
          p = pos + utf8Len w ∧ c.range = (pos, p)) := by
  unfold tryNext
  cases l with
  | nil =>
    dsimp only
    refine ⟨by simp, fun _ => rfl, ?_⟩
    intro c p r h
    exact ScanRes.noConfusion h
  | cons c0 rest =>
    dsimp only
    by_cases hc0 : c0 = '%'
    · rw [if_pos hc0]
      cases rest with
      | nil =>
        dsimp only
        refine ⟨by simp, by simp, ?_⟩
        intro c p r h
        simp only [ScanRes.tok.injEq] at h
        obtain ⟨hc, hp, hr⟩ := h
        subst hc; subst hp; subst hr
        exact ⟨by simp, fun _ => ⟨[c0], by simp, rfl, by simp, rfl⟩⟩
      | cons c1 rest1 =>
        dsimp only
        by_cases hc1 : c1 = '{'
        · rw [if_pos hc1]
          obtain ⟨hnp, hspec⟩ :=
            parsePlaceholder_spec pos (pos + c0.utf8Size + c1.utf8Size) rest1
          refine ⟨hnp, ?_, ?_⟩
          · intro h
            exact absurd h
              (parsePlaceholder_ne_done pos (pos + c0.utf8Size + c1.utf8Size) rest1)
          · intro c p r h
            obtain ⟨hlen, hgood⟩ := hspec c p r h
            refine ⟨by simpa using by omega, ?_⟩
            intro herr
            obtain ⟨w, hw1, hw2, hw3, hw4⟩ := hgood herr
            refine ⟨c0 :: c1 :: w, ?_, ?_, ?_, ?_⟩
            · simp [hw1]
            · rw [hw2, hc0, hc1]
            · simp [hw3, hc0, hc1]; omega
            · rw [hw4]
        · rw [if_neg hc1]
          cases hm : munchLiteral (pos + c0.utf8Size + c1.utf8Size) rest1 with
          | mk w q =>
            obtain ⟨pm, rm⟩ := q
            obtain ⟨hm1, hm2⟩ := munchLiteral_eq hm
            dsimp only
            refine ⟨by simp, by simp, ?_⟩
            intro c p r h
            simp only [ScanRes.tok.injEq] at h
            obtain ⟨hc, hp, hr⟩ := h
            subst hc; subst hp; subst hr
            refine ⟨by simp [hm1]; omega, ?_⟩
            intro _
            refine ⟨c0 :: c1 :: w, by simp [hm1], rfl, ?_, rfl⟩
            simp [hm2]; omega
    · rw [if_neg hc0]
      cases hm : munchLiteral (pos + c0.utf8Size) rest with
      | mk w q =>
        obtain ⟨pm, rm⟩ := q
        obtain ⟨hm1, hm2⟩ := munchLiteral_eq hm
        dsimp only
        refine ⟨by simp, by simp, ?_⟩
        intro c p r h
        simp only [ScanRes.tok.injEq] at h
        obtain ⟨hc, hp, hr⟩ := h
        subst hc; subst hp; subst hr
        refine ⟨by simp [hm1]; omega, ?_⟩
        intro _
        refine ⟨c0 :: w, by simp [hm1], rfl, ?_, rfl⟩
        simp [hm2]; omega

theorem tryNext_tok_length {pos : Nat} {l : List Char} {c : GrokComponent}
    {p : Nat} {r : List Char} (h : tryNext pos l = .tok c p r) :
    r.length < l.length :=
  ((tryNext_spec pos l).2.2 c p r h).1

/-- The scanner iteration: repeated `next()` calls (`Iterator for GrokSplit`),
fusing on a `PatternError`.  `none` models either a panic of the `unwrap()`
inside `try_next` or fuel exhaustion; each step consumes at least one
character, so `length + 1` fuel always suffices (`grokSplitGo_total`). -/
def grokSplitGo : Nat → Nat → List Char → Option (List GrokComponent)
  | 0, _, _ => none
  | fuel + 1, pos, l =>
    match tryNext pos l with
    | .done => some []
    | .panicked => none
    | .tok c p r =>
      if c.isError then some [c]
      else (grokSplitGo fuel p r).map (fun ts => c :: ts)

/-- `grok_split` on a whole source: the full token sequence (or `none` for a
panic, shown unreachable below). -/
def grokSplit (l : List Char) : Option (List GrokComponent) :=
  grokSplitGo (l.length + 1) 0 l

/-- Total version used by the compiler (justified by `grokSplit_total`). -/
def grokSplitD (l : List Char) : List GrokComponent :=
  (grokSplit l).getD []

/-! ### Scanner totality and partition -/

theorem grokSplitGo_total :
    ∀ (fuel pos : Nat) (l : List Char), l.length < fuel →
    ∃ toks, grokSplitGo fuel pos l = some toks ∧ toks.length ≤ l.length := by
  intro fuel
  induction fuel with
  | zero => intro pos l h; omega
  | succ n ih =>
    intro pos l hlt
    unfold grokSplitGo
    cases ht : tryNext pos l with
    | done => exact ⟨[], rfl, by simp⟩
    | panicked => exact absurd ht (tryNext_spec pos l).1
    | tok c p r =>
      obtain ⟨hlen, _⟩ := (tryNext_spec pos l).2.2 c p r ht
      dsimp only
      by_cases herr : c.isError
      · rw [if_pos herr]
        refine ⟨[c], rfl, ?_⟩
        simp; omega
      · rw [if_neg herr]
        obtain ⟨toks, htoks, hlen2⟩ := ih p r (by omega)
        rw [htoks]
        refine ⟨c :: toks, rfl, ?_⟩
        simp; omega

theorem grokSplit_total (l : List Char) :
    ∃ toks, grokSplit l = some toks ∧ toks.length ≤ l.length :=
  grokSplitGo_total (l.length + 1) 0 l (Nat.lt_succ_self _)

/-- The tokens `toks` tile `l`: contiguous byte ranges starting at `pos`,
each range exactly the byte span of the token's carried text. -/
def partitionFrom (pos : Nat) : List GrokComponent → List Char → Prop
  | [], l => l = []
  | t :: ts, l => ∃ r, l = t.text ++ r ∧
      t.range = (pos, pos + utf8Len t.text) ∧
      partitionFrom (pos + utf8Len t.text) ts r

theorem grokSplitGo_partition :
    ∀ (fuel pos : Nat) (l : List Char) (toks : List GrokComponent),
    grokSplitGo fuel pos l = some toks →
    (∀ t ∈ toks, t.isError = false) → partitionFrom pos toks l := by
  intro fuel
  induction fuel with
  | zero => intro pos l toks h; simp [grokSplitGo] at h
  | succ n ih =>
    intro pos l toks h hne
    unfold grokSplitGo at h
    cases ht : tryNext pos l with
    | done =>
      rw [ht] at h
      simp only [Option.some.injEq] at h
      subst h
      have hl : l = [] := (tryNext_spec pos l).2.1 ht
      exact hl
    | panicked => rw [ht] at h; exact absurd ht (tryNext_spec pos l).1
    | tok c p r =>
      rw [ht] at h
      dsimp only at h
      by_cases herr : c.isError
      · rw [if_pos herr] at h
        simp only [Option.some.injEq] at h
        subst h
        have := hne c (by simp)
        rw [herr] at this
        exact Bool.noConfusion this
      · rw [if_neg herr] at h
        cases hgo : grokSplitGo n p r with
        | none => rw [hgo] at h; exact Option.noConfusion h
        | some ts =>
          rw [hgo] at h
          simp only [Option.map_some', Option.some.injEq] at h
          subst h
          obtain ⟨_, hgood⟩ := (tryNext_spec pos l).2.2 c p r ht
          obtain ⟨w, hw1, hw2, hw3, hw4⟩ :=
            hgood (by simpa using herr)
          refine ⟨r, by rw [hw1, hw2], by rw [hw4, hw3, hw2], ?_⟩
          have := ih p r ts hgo (fun t htm => hne t (by simp [htm]))
          rw [hw2, ← hw3]
          exact this

/-- Concatenation of the texts of a token list. -/
def joinTexts (toks : List GrokComponent) : List Char :=
  (toks.map GrokComponent.text).flatten

theorem partitionFrom_join :
    ∀ (toks : List GrokComponent) (pos : Nat) (l : List Char),
    partitionFrom pos toks l → joinTexts toks = l := by
  intro toks
  induction toks with
  | nil =>
    intro pos l h
    rw [show l = [] from h]
    rfl
  | cons t ts ih =>
    intro pos l h
    obtain ⟨r, h1, _, h3⟩ := h
    have hts := ih _ _ h3
    show t.text ++ joinTexts ts = l
    rw [hts, h1]

/-- The byte slice `l[a..b]` of a character list (`a`, `b` always fall on
character boundaries in our uses). -/
def sliceBytes : List Char → Nat → Nat → List Char
  | [], _, _ => []
  | c :: cs, a, b =>
    if a = 0 then
      if b = 0 then [] else c :: sliceBytes cs 0 (b - c.utf8Size)
    else sliceBytes cs (a - c.utf8Size) (b - c.utf8Size)

theorem sliceBytes_zero_zero : ∀ l : List Char, sliceBytes l 0 0 = []
  | [] => rfl
  | _ :: _ => by simp [sliceBytes]

theorem sliceBytes_prefix : ∀ (mid post : List Char),
    sliceBytes (mid ++ post) 0 (utf8Len mid) = mid := by
  intro mid
  induction mid with
  | nil => intro post; simpa using sliceBytes_zero_zero post
  | cons c cs ih =>
    intro post
    have hpos := utf8Size_pos c
    simp only [List.cons_append, sliceBytes, utf8Len_cons]
    rw [if_pos trivial, if_neg (by omega)]
    have harith : c.utf8Size + utf8Len cs - c.utf8Size = utf8Len cs := by omega
    rw [harith]
    exact congrArg (fun x => c :: x) (ih post)

theorem sliceBytes_exact : ∀ (pre mid post : List Char),
    sliceBytes (pre ++ mid ++ post) (utf8Len pre) (utf8Len pre + utf8Len mid)
      = mid := by
  intro pre
  induction pre with
  | nil => intro mid post; simpa using sliceBytes_prefix mid post
  | cons c cs ih =>
    intro mid post
    have hpos := utf8Size_pos c
    simp only [List.cons_append, sliceBytes, utf8Len_cons]
    rw [if_neg (by omega)]
    have h1 : c.utf8Size + utf8Len cs - c.utf8Size = utf8Len cs := by omega
    have h2 : c.utf8Size + utf8Len cs + utf8Len mid - c.utf8Size
        = utf8Len cs + utf8Len mid := by omega
    rw [h1, h2]
    exact ih mid post

theorem partitionFrom_slice :
    ∀ (toks : List GrokComponent) (pre l : List Char),
    partitionFrom (utf8Len pre) toks l →
    ∀ t ∈ toks, t.text = sliceBytes (pre ++ l) t.range.1 t.range.2 := by
  intro toks
  induction toks with
  | nil => intro pre l _ t ht; exact absurd ht (List.not_mem_nil t)
  | cons t0 ts ih =>
    intro pre l h t ht
    obtain ⟨r, h1, h2, h3⟩ := h
    rcases List.mem_cons.mp ht with h4 | h4
    · subst h4
      rw [h2]
      dsimp only
      rw [h1, ← List.append_assoc]
      exact (sliceBytes_exact pre t.text r).symm
    · have h3' : partitionFrom (utf8Len (pre ++ t0.text)) ts r := by
        rw [utf8Len_append]; exact h3
      have hres := ih (pre ++ t0.text) r h3' t h4
      rw [h1, ← List.append_assoc]
      exact hres

/-! ## Compiler (src/lib.rs) -/

/-- First-match lookup in an association list.  All the Rust maps modelled
here keep their keys unique, so first match is the match. -/
def lookupA {β : Type} : List (List Char × β) → List Char → Option β
  | [], _ => none
  | (k', v) :: rest, k => if k' = k then some v else lookupA rest k

/-- Insert-or-replace in an association list (`insert` of `HashMap` and
`BTreeMap`). -/
def setA {β : Type} : List (List Char × β) → List Char → β → List (List Char × β)
  | [], k, v => [(k, v)]
  | (k', v') :: rest, k, v =>
    if k' = k then (k, v) :: rest else (k', v') :: setA rest k v

/-- Decimal digits of `n`, as `format!` renders a `usize`. -/
def natChars (n : Nat) : List Char := Nat.toDigits 10 n

/-- Mirrors `Error` in `lib.rs`. -/
inductive Error where
  | recursionTooDeep
  | compiledPatternIsEmpty (source : List Char)
  | definitionNotFound (name : List Char)
  | regexCompilationFailed (detail : List Char)
  | genericCompilationFailure (detail : List Char)
  deriving DecidableEq, Repr

/-- `format!` of a `GrokPatternError` via its derived `Debug` (the character
payload is rendered unescaped; no claim depends on the payload text). -/
def errDebug : GrokPatternError → List Char
  | .invalidCharacter c => "InvalidCharacter(".data ++ '\'' :: c :: '\'' :: ")".data
  | .invalidPattern => "InvalidPattern".data
  | .invalidPatternDefinition => "InvalidPatternDefinition".data

/-- `MAX_RECURSION` in `lib.rs`. -/
def MAX_RECURSION : Nat := 1024

/-- One work item of `compile_regex`: a scanner iterator (modelled by the
remaining token list) paired with its local definition override map. -/
structure Frame where
  toks : List GrokComponent
  overrides : List (List Char × List Char)
  deriving DecidableEq, Repr

/-- The mutable state of the `compile_regex` loop.  `assigns` is a ghost
field recording, in processing order, each `(orig_key, key)` pair produced by
the duplicate-resolution block; the Rust code computes both values but only
stores `key`. -/
structure CState where
  stack : List Frame
  out : List Char
  aliases : List (List Char × List Char)
  aliasesExtra : List (List Char × Nat)
  extracts : List (List Char × List Char)
  index : Nat
  assigns : List (List Char × List Char)
  deriving DecidableEq, Repr

/-- The successful result of `compile_regex` (plus the ghost `assigns`). -/
structure CompileOut where
  namedRegex : List Char
  aliases : List (List Char × List Char)
  extracts : List (List Char × List Char)
  assigns : List (List Char × List Char)
  deriving DecidableEq, Repr

/-- Body selection for a placeholder (`lib.rs` lines 334-351): an inline
definition is used directly and recorded in the *current* frame's override
map; otherwise the current frame's override map is consulted, then the
dictionary; a miss is `DefinitionNotFound`.  Returns the chosen body and the
updated override map for the continuation of the current frame. -/
def resolveBody (patterns : List Char → Option (List Char))
    (ov : List (List Char × List Char)) (name definition : List Char) :
    Except Error (List Char × List (List Char × List Char)) :=
  if definition ≠ [] then .ok (definition, setA ov name definition)
  else
    match lookupA ov name with
    | some body => .ok (body, ov)
    | none =>
      match patterns name with
      | some body => .ok (body, ov)
      | none => .error (.definitionNotFound name)

/-- The user-facing key for the `count`-th occurrence of a raw key:
the raw key itself first, then `raw[1]`, `raw[2]`, ... -/
def resolvedKey (origKey : List Char) (count : Nat) : List Char :=
  if count = 0 then origKey
  else origKey ++ "[".data ++ natChars count ++ "]".data

/-- The naming block of `compile_regex` for a named capture: assign the
synthetic name, resolve duplicates of the raw key via the per-key counter,
record alias/extract entries.  A synthesized key colliding with an existing
raw key is an error. -/
def emitNamed (s : CState) (matchName origKey extract : List Char) :
    Except Error CState :=
  let count := (lookupA s.aliasesExtra origKey).getD 0
  let key := resolvedKey origKey count
  let extra := setA s.aliasesExtra origKey (count + 1)
  if count + 1 > 1 ∧ (lookupA extra key).isSome then
    .error (.genericCompilationFailure
      ("Alias ".data ++ key ++ " already exists".data))
  else
    .ok { s with
      index := s.index + 1
      aliasesExtra := extra
      extracts :=
        if extract = [] then s.extracts else setA s.extracts key extract
      aliases := setA s.aliases matchName key
      assigns := s.assigns ++ [(origKey, key)]
      out := s.out ++ "(?<".data ++ matchName ++ ">".data }

/-- Group emission for a placeholder (`lib.rs` lines 353-384): either a
non-capturing group (`with_alias_only` and no alias), or a named capture
`_n_<index>` whose raw key is the alias if non-empty, else the name. -/
def emitGroup (withAliasOnly : Bool) (s : CState)
    (name aliasName extract : List Char) : Except Error CState :=
  if withAliasOnly ∧ aliasName = [] then
    .ok { s with out := s.out ++ "(?:".data }
  else
    emitNamed s ("_n_".data ++ natChars s.index)
      (if aliasName = [] then name else aliasName) extract

/-- Result of one iteration of the `compile_regex` loop. -/
inductive StepRes where
  | err (e : Error)
  | next (s : CState)
  | finished (out : CompileOut)
  deriving DecidableEq, Repr

/-- One iteration of the `while let` loop of `compile_regex`, WITHOUT the
recursion guard (the guard is a wrapper, see `compileStep`).  The `finished`
case performs the trailing `named_regex.pop()`. -/
def compileStep0 (patterns : List Char → Option (List Char))
    (withAliasOnly : Bool) (s : CState) : StepRes :=
  match s.stack with
  | [] => .finished ⟨s.out.dropLast, s.aliases, s.extracts, s.assigns⟩
  | frame :: stackRest =>
    match frame.toks with
    | [] => .next { s with stack := stackRest, out := s.out ++ [')'] }
    | tok :: toksRest =>
      match tok with
      | .regularExpression _ lit =>
        .next { s with stack := ⟨toksRest, frame.overrides⟩ :: stackRest,
                       out := s.out ++ lit }
      | .patternError e => .err (.genericCompilationFailure (errDebug e))
      | .grokPattern _ _ name aliasName extract definition =>
        match resolveBody patterns frame.overrides name definition with
        | .error e => .err e
        | .ok (body, ov') =>
          match emitGroup withAliasOnly
              { s with stack := ⟨toksRest, ov'⟩ :: stackRest }
              name aliasName extract with
          | .error e => .err e
          | .ok s' => .next { s' with stack := ⟨grokSplitD body, []⟩ :: s'.stack }

/-- One iteration of `compile_regex` as written: the unguarded step followed
by the end-of-loop check `pattern_stack.len() > MAX_RECURSION` (error returns
and loop exit bypass the check). -/
def compileStep (patterns : List Char → Option (List Char))
    (withAliasOnly : Bool) (s : CState) : StepRes :=
  match compileStep0 patterns withAliasOnly s with
  | .next s' =>
    if s'.stack.length > MAX_RECURSION then .err .recursionTooDeep
    else .next s'
  | r => r

/-- Fuel-indexed iteration of the guarded loop: this is `compile_regex`. -/
def runCompile (patterns : List Char → Option (List Char))
    (withAliasOnly : Bool) : Nat → CState → Option (Except Error CompileOut)
  | 0, _ => none
  | fuel + 1, s =>
    match compileStep patterns withAliasOnly s with
    | .err e => some (.error e)
    | .finished out => some (.ok out)
    | .next s' => runCompile patterns withAliasOnly fuel s'

/-- Fuel-indexed iteration of the UNGUARDED loop, additionally returning the
maximum work-item stack depth observed after each step; this defines the
"expansion depth" of a compilation. -/
def runFree (patterns : List Char → Option (List Char))
    (withAliasOnly : Bool) : Nat → CState → Option (Except Error CompileOut × Nat)
  | 0, _ => none
  | fuel + 1, s =>
    match compileStep0 patterns withAliasOnly s with
    | .err e => some (.error e, 0)
    | .finished out => some (.ok out, 0)
    | .next s' =>
      match runFree patterns withAliasOnly fuel s' with
      | some (res, d) => some (res, max s'.stack.length d)
      | none => none

/-- The initial loop state for a source pattern. -/
def initState (source : List Char) : CState :=
  ⟨[⟨grokSplitD source, []⟩], [], [], [], [], 0, []⟩

/-- `Grok::compile_regex` on a source string, with the dictionary modelled as
a lookup function (`BTreeMap::get`). -/
def compileRegex (patterns : List Char → Option (List Char))
    (withAliasOnly : Bool) (fuel : Nat) (source : List Char) :
    Option (Except Error CompileOut) :=
  runCompile patterns withAliasOnly fuel (initState source)

/-- `Grok::compile` minus the backend: `compile_regex` followed by the
empty-output check. -/
def compile (patterns : List Char → Option (List Char))
    (withAliasOnly : Bool) (fuel : Nat) (source : List Char) :
    Option (Except Error CompileOut) :=
  match compileRegex patterns withAliasOnly fuel source with
  | some (.ok out) =>
    if out.namedRegex = [] then some (.error (.compiledPatternIsEmpty source))
    else some (.ok out)
  | r => r

/-- A dictionary built from `(name, body)` pairs (first match wins; the
test dictionaries have distinct names). -/
def dictOf (ps : List (String × String)) : List Char → Option (List Char) :=
  fun k => (ps.find? (fun p => p.1.data = k)).map (fun p => p.2.data)

/-! ### The recursion guard versus the unguarded expansion -/

theorem runFree_runCompile (patterns : List Char → Option (List Char))
    (ao : Bool) :
    ∀ (fuel : Nat) (s : CState) (out : CompileOut) (d : Nat),
    runFree patterns ao fuel s = some (.ok out, d) →
    (d ≤ MAX_RECURSION → runCompile patterns ao fuel s = some (.ok out)) ∧
    (MAX_RECURSION < d →
      runCompile patterns ao fuel s = some (.error .recursionTooDeep)) := by
  intro fuel
  induction fuel with
  | zero => intro s out d h; simp [runFree] at h
  | succ n ih =>
    intro s out d h
    unfold runFree at h
    unfold runCompile compileStep
    cases h0 : compileStep0 patterns ao s with
    | err e =>
      rw [h0] at h
      dsimp only at h
      simp at h
    | finished o =>
      rw [h0] at h
      dsimp only at h
      simp only [Option.some.injEq, Prod.mk.injEq, Except.ok.injEq] at h
      obtain ⟨ho, hd⟩ := h
      subst ho; subst hd
      exact ⟨fun _ => rfl, fun hgt => absurd hgt (by decide)⟩
    | next s' =>
      rw [h0] at h
      dsimp only at h
      cases h1 : runFree patterns ao n s' with
      | none => rw [h1] at h; dsimp only at h; exact Option.noConfusion h
      | some q =>
        obtain ⟨res, d'⟩ := q
        rw [h1] at h
        dsimp only at h
        simp only [Option.some.injEq, Prod.mk.injEq] at h
        obtain ⟨hres, hd⟩ := h
        subst hres
        subst hd
        dsimp only
        by_cases hlen : s'.stack.length > MAX_RECURSION
        · rw [if_pos hlen]
          constructor
          · intro hle
            exfalso
            have := Nat.le_max_left s'.stack.length d'
            omega
          · intro _
            rfl
        · rw [if_neg hlen]
          have ihres := ih s' out d' h1
          constructor
          · intro hle
            exact ihres.1 (le_trans (Nat.le_max_right _ _) hle)
          · intro hgt
            refine ihres.2 ?_
            rw [Nat.not_lt] at hlen
            omega


/-! ### Duplicate-key resolution -/

theorem lookupA_setA_self {β : Type} (m : List (List Char × β))
    (k : List Char) (v : β) : lookupA (setA m k v) k = some v := by
  induction m with
  | nil => simp [setA, lookupA]
  | cons p rest ih =>
    obtain ⟨k', v'⟩ := p
    by_cases hk : k' = k
    · simp [setA, hk, lookupA]
    · simp only [setA, hk, if_false, lookupA]
      exact ih

theorem lookupA_setA_other {β : Type} (m : List (List Char × β))
    (k k0 : List Char) (v : β) (hne : k ≠ k0) :
    lookupA (setA m k v) k0 = lookupA m k0 := by
  induction m with
  | nil => simp [setA, lookupA, hne]
  | cons p rest ih =>
    obtain ⟨k', v'⟩ := p
    by_cases hk : k' = k
    · subst hk
      simp [setA, lookupA, hne]
    · simp only [setA, hk, if_false, lookupA]
      by_cases hk0 : k' = k0
      · simp [hk0]
      · rw [if_neg hk0, if_neg hk0]
        exact ih

/-- Keys produced, in order, for a given raw key (projection of the ghost
`assigns` trace). -/
def keysFor (k : List Char) (l : List (List Char × List Char)) :
    List (List Char) :=
  (l.filter (fun p => p.1 = k)).map Prod.snd

/-- Number of placeholders processed so far with a given raw key. -/
def countFor (k : List Char) (l : List (List Char × List Char)) : Nat :=
  (l.filter (fun p => p.1 = k)).length

/-- The key sequence the spec prescribes for `n` uses of raw key `k`:
`k, k[1], …, k[n-1]`. -/
def stdKeys (k : List Char) (n : Nat) : List (List Char) :=
  (List.range n).map (resolvedKey k)

/-- Loop invariant tying `aliases_extra` to the assignment trace. -/
def aliasInv (s : CState) : Prop :=
  ∀ k, (lookupA s.aliasesExtra k).getD 0 = countFor k s.assigns ∧
    keysFor k s.assigns = stdKeys k (countFor k s.assigns)

theorem keysFor_append (k k0 key : List Char)
    (l : List (List Char × List Char)) :
    keysFor k (l ++ [(k0, key)]) =
      keysFor k l ++ (if k0 = k then [key] else []) := by
  by_cases h : k0 = k <;> simp [keysFor, List.filter_append, h]

theorem countFor_append (k k0 key : List Char)
    (l : List (List Char × List Char)) :
    countFor k (l ++ [(k0, key)]) =
      countFor k l + (if k0 = k then 1 else 0) := by
  by_cases h : k0 = k <;> simp [countFor, List.filter_append, h]

theorem stdKeys_succ (k : List Char) (n : Nat) :
    stdKeys k (n + 1) = stdKeys k n ++ [resolvedKey k n] := by
  simp [stdKeys, List.range_succ]

theorem emitNamed_inv {s s' : CState} {matchName origKey extract : List Char}
    (h : emitNamed s matchName origKey extract = .ok s') (hinv : aliasInv s) :
    aliasInv s' := by
  unfold emitNamed at h
  dsimp only at h
  split at h
  · exact Except.noConfusion h
  · simp only [Except.ok.injEq] at h
    subst h
    intro k
    obtain ⟨hc, hk⟩ := hinv k
    by_cases hko : origKey = k
    · subst hko
      constructor
      · rw [lookupA_setA_self]
        simp only [Option.getD_some]
        rw [countFor_append, if_pos rfl, hc]
      · rw [keysFor_append, countFor_append, if_pos rfl, if_pos rfl]
        rw [hk, hc, stdKeys_succ]
    · constructor
      · rw [lookupA_setA_other _ _ _ _ hko]
        rw [countFor_append, if_neg hko, hc]
        omega
      · rw [keysFor_append, countFor_append, if_neg hko, if_neg hko]
        simp [hk]



theorem emitGroup_inv {ao : Bool} {s s' : CState}
    {name aliasName extract : List Char}
    (h : emitGroup ao s name aliasName extract = .ok s') (hinv : aliasInv s) :
    aliasInv s' := by
  unfold emitGroup at h
  split at h
  · simp only [Except.ok.injEq] at h
    subst h
    exact hinv
  · exact emitNamed_inv h hinv

theorem compileStep0_next_inv {patterns : List Char → Option (List Char)}
    {ao : Bool} {s s' : CState}
    (h : compileStep0 patterns ao s = .next s') (hinv : aliasInv s) :
    aliasInv s' := by
  unfold compileStep0 at h
  cases hst : s.stack with
  | nil => rw [hst] at h; exact StepRes.noConfusion h
  | cons frame stackRest =>
    rw [hst] at h
    dsimp only at h
    cases htoks : frame.toks with
    | nil =>
      rw [htoks] at h
      dsimp only at h
      simp only [StepRes.next.injEq] at h
      subst h
      exact hinv
    | cons tok toksRest =>
      rw [htoks] at h
      dsimp only at h
      cases tok with
      | regularExpression rg lit =>
        simp only [StepRes.next.injEq] at h
        subst h
        exact hinv
      | patternError e => exact StepRes.noConfusion h
      | grokPattern rg pat name aliasName extract definition =>
        dsimp only at h
        cases hrb : resolveBody patterns frame.overrides name definition with
        | error e => rw [hrb] at h; exact StepRes.noConfusion h
        | ok q =>
          obtain ⟨body, ov'⟩ := q
          rw [hrb] at h
          dsimp only at h
          cases hem : emitGroup ao
              { s with stack := ⟨toksRest, ov'⟩ :: stackRest }
              name aliasName extract with
          | error e => rw [hem] at h; exact StepRes.noConfusion h
          | ok s'' =>
            rw [hem] at h
            dsimp only at h
            simp only [StepRes.next.injEq] at h
            subst h
            have hinv2 : aliasInv s'' := emitGroup_inv hem hinv
            exact fun k => hinv2 k

theorem compileStep_next {patterns : List Char → Option (List Char)}
    {ao : Bool} {s s' : CState}
    (h : compileStep patterns ao s = .next s') :
    compileStep0 patterns ao s = .next s' := by
  unfold compileStep at h
  cases h0 : compileStep0 patterns ao s with
  | err e => rw [h0] at h; exact StepRes.noConfusion h
  | finished o => rw [h0] at h; exact StepRes.noConfusion h
  | next s'' =>
    rw [h0] at h
    dsimp only at h
    split at h
    · exact StepRes.noConfusion h
    · simp only [StepRes.next.injEq] at h
      rw [h]

theorem compileStep_finished {patterns : List Char → Option (List Char)}
    {ao : Bool} {s : CState} {o : CompileOut}
    (h : compileStep patterns ao s = .finished o) :
    compileStep0 patterns ao s = .finished o := by
  unfold compileStep at h
  cases h0 : compileStep0 patterns ao s with
  | err e => rw [h0] at h; exact StepRes.noConfusion h
  | finished o' =>
    rw [h0] at h
    dsimp only at h
    simp only [StepRes.finished.injEq] at h
    rw [h]
  | next s'' =>
    rw [h0] at h
    dsimp only at h
    split at h
    · exact StepRes.noConfusion h
    · exact StepRes.noConfusion h

theorem compileStep0_finished_fields {patterns : List Char → Option (List Char)}
    {ao : Bool} {s : CState} {o : CompileOut}
    (h : compileStep0 patterns ao s = .finished o) :
    o = ⟨s.out.dropLast, s.aliases, s.extracts, s.assigns⟩ := by
  unfold compileStep0 at h
  cases hst : s.stack with
  | nil =>
    rw [hst] at h
    dsimp only at h
    simp only [StepRes.finished.injEq] at h
    rw [← h]
  | cons frame stackRest =>
    rw [hst] at h
    dsimp only at h
    cases htoks : frame.toks with
    | nil => rw [htoks] at h; exact StepRes.noConfusion h
    | cons tok toksRest =>
      rw [htoks] at h
      dsimp only at h
      cases tok with
      | regularExpression rg lit => exact StepRes.noConfusion h
      | patternError e => exact StepRes.noConfusion h
      | grokPattern rg pat name aliasName extract definition =>
        dsimp only at h
        cases hrb : resolveBody patterns frame.overrides name definition with
        | error e => rw [hrb] at h; exact StepRes.noConfusion h
        | ok q =>
          obtain ⟨body, ov'⟩ := q
          rw [hrb] at h
          dsimp only at h
          cases hem : emitGroup ao
              { s with stack := ⟨toksRest, ov'⟩ :: stackRest }
              name aliasName extract with
          | error e => rw [hem] at h; exact StepRes.noConfusion h
          | ok s'' =>
            rw [hem] at h
            exact StepRes.noConfusion h

theorem runCompile_keysFor (patterns : List Char → Option (List Char))
    (ao : Bool) :
    ∀ (fuel : Nat) (s : CState) (out : CompileOut),
    runCompile patterns ao fuel s = some (.ok out) → aliasInv s →
    ∀ k, keysFor k out.assigns = stdKeys k (countFor k out.assigns) := by
  intro fuel
  induction fuel with
  | zero => intro s out h; simp [runCompile] at h
  | succ n ih =>
    intro s out h hinv
    unfold runCompile at h
    cases h0 : compileStep patterns ao s with
    | err e => rw [h0] at h; simp at h
    | finished o =>
      rw [h0] at h
      dsimp only at h
      simp only [Option.some.injEq, Except.ok.injEq] at h
      subst h
      have hfields :=
        compileStep0_finished_fields (compileStep_finished h0)
      subst hfields
      intro k
      exact (hinv k).2
    | next s' =>
      rw [h0] at h
      dsimp only at h
      exact ih s' out h (compileStep0_next_inv (compileStep_next h0) hinv)

theorem aliasInv_init (source : List Char) : aliasInv (initState source) := by
  intro k
  constructor
  · rfl
  · rfl


/-! ## Compiled-pattern runtime adapter (src/fancy_regex.rs / src/pcre2.rs) -/

/-- Strict lexicographic (code-point, equivalently UTF-8 byte) order on
strings: the `Ord` instance of Rust `String` driving the `BTreeMap`. -/
def lexLt : List Char → List Char → Bool
  | [], [] => false
  | [], _ :: _ => true
  | _ :: _, [] => false
  | a :: as_, b :: bs =>
    if a.toNat < b.toNat then true
    else if b.toNat < a.toNat then false
    else lexLt as_ bs

/-- Ordered insert-or-replace: `BTreeMap::insert` on the name table. -/
def binsert (k : List Char) (v : Nat) :
    List (List Char × Nat) → List (List Char × Nat)
  | [] => [(k, v)]
  | (k', v') :: rest =>
    if lexLt k k' then (k, v) :: (k', v') :: rest
    else if k = k' then (k, v) :: rest
    else (k', v') :: binsert k v rest

/-- The user-facing name of a backend capture name under the alias map
(`alias.get(name).map_or(name, |s| s)`). -/
def resolveName (aliasMap : List Char → Option (List Char)) (n : List Char) :
    List Char :=
  (aliasMap n).getD n

/-- The name-table construction of `FancyRegexPattern::new` (identical in
`Pcre2Pattern::new`): fold over the backend's ordered capture-name list
(`capture_names().enumerate()`, `none` for anonymous groups), mapping each
named group through the alias map and inserting it with its index into the
`BTreeMap`. -/
def buildNamesGo (aliasMap : List Char → Option (List Char)) :
    Nat → List (Option (List Char)) → List (List Char × Nat) →
      List (List Char × Nat)
  | _, [], m => m
  | i, optName :: rest, m =>
    buildNamesGo aliasMap (i + 1) rest
      (match optName with
       | none => m
       | some n => binsert (resolveName aliasMap n) i m)

def buildNames (aliasMap : List Char → Option (List Char))
    (capNames : List (Option (List Char))) : List (List Char × Nat) :=
  buildNamesGo aliasMap 0 capNames []

/-- `capture_names()`: the keys of the name table, in `BTreeMap` order. -/
def captureNames (names : List (List Char × Nat)) : List (List Char) :=
  names.map Prod.fst

/-- `Matches::get`: look the key up in the name table, then fetch the span
from the backend captures (`none` when the group did not participate). -/
def matchesGet (names : List (List Char × Nat))
    (captures : Nat → Option (List Char)) (k : List Char) :
    Option (List Char) :=
  (lookupA names k).bind captures

/-- `Matches::iter`: walk the name table in order, skipping groups that did
not participate in the match. -/
def matchesIter (names : List (List Char × Nat))
    (captures : Nat → Option (List Char)) :
    List (List Char × List Char) :=
  names.filterMap (fun p => (captures p.2).map (fun m => (p.1, m)))

/-! ## Match-time error trapping (src/onig.rs / src/fancy_regex.rs) -/

/-- `OnigPattern::match_against`: the backend search either errors, finds no
match, or finds one; `match result { Ok(r) => r, Err(_) => None }`. -/
def onigMatchAgainst {ε α : Type} (result : Except ε (Option α)) : Option α :=
  match result with
  | .ok r => r
  | .error _ => none

/-- `FancyRegexPattern::match_against`:
`self.regex.captures(text).ok().flatten()`. -/
def fancyRegexMatchAgainst {ε α : Type} (result : Except ε (Option α)) :
    Option α :=
  (result.toOption).join

/-- `Pattern::match_against` in `lib.rs`: wraps the engine result, `None`
propagating as `None` (`self.inner.match_against(text)?`). -/
def patternMatchAgainst {ε α : Type} (result : Except ε (Option α)) :
    Option α :=
  match onigMatchAgainst result with
  | none => none
  | some m => some m


/-! ### Order facts for the name table -/

theorem lexLt_trans : ∀ a b c : List Char,
    lexLt a b = true → lexLt b c = true → lexLt a c = true := by
  intro a
  induction a with
  | nil =>
    intro b c hab hbc
    cases b with
    | nil => simp [lexLt] at hab
    | cons b0 bs =>
      cases c with
      | nil => simp [lexLt] at hbc
      | cons c0 cs => simp [lexLt]
  | cons a0 as_ ih =>
    intro b c hab hbc
    cases b with
    | nil => simp [lexLt] at hab
    | cons b0 bs =>
      cases c with
      | nil => simp [lexLt] at hbc
      | cons c0 cs =>
        unfold lexLt at hab hbc ⊢
        by_cases h1 : a0.toNat < b0.toNat
        · by_cases h2 : b0.toNat < c0.toNat
          · rw [if_pos (lt_trans h1 h2)]
          · by_cases h3 : c0.toNat < b0.toNat
            · rw [if_neg h2, if_pos h3] at hbc
              exact absurd hbc (by simp)
            · have he : b0.toNat = c0.toNat :=
                le_antisymm (not_lt.mp h3) (not_lt.mp h2)
              rw [if_pos (by rw [← he]; exact h1)]
        · by_cases h4 : b0.toNat < a0.toNat
          · rw [if_neg h1, if_pos h4] at hab
            exact absurd hab (by simp)
          · have hea : a0.toNat = b0.toNat :=
              le_antisymm (not_lt.mp h4) (not_lt.mp h1)
            rw [if_neg h1, if_neg h4] at hab
            by_cases h2 : b0.toNat < c0.toNat
            · rw [if_pos (by rw [hea]; exact h2)]
            · by_cases h3 : c0.toNat < b0.toNat
              · rw [if_neg h2, if_pos h3] at hbc
                exact absurd hbc (by simp)
              · have heb : b0.toNat = c0.toNat :=
                  le_antisymm (not_lt.mp h3) (not_lt.mp h2)
                rw [if_neg h2, if_neg h3] at hbc
                have hac : ¬ a0.toNat < c0.toNat := by
                  rw [hea, heb]; exact lt_irrefl _
                have hca : ¬ c0.toNat < a0.toNat := by
                  rw [hea, heb]; exact lt_irrefl _
                rw [if_neg hac, if_neg hca]
                exact ih bs cs hab hbc

theorem lexLt_total : ∀ a b : List Char,
    a = b ∨ lexLt a b = true ∨ lexLt b a = true := by
  intro a
  induction a with
  | nil =>
    intro b
    cases b with
    | nil => exact Or.inl rfl
    | cons b0 bs => exact Or.inr (Or.inl (by simp [lexLt]))
  | cons a0 as_ ih =>
    intro b
    cases b with
    | nil => exact Or.inr (Or.inr (by simp [lexLt]))
    | cons b0 bs =>
      rcases lt_trichotomy a0.toNat b0.toNat with h | h | h
      · exact Or.inr (Or.inl (by unfold lexLt; rw [if_pos h]))
      · have ha : a0 = b0 := Char.ext (UInt32.ext h)
        rcases ih bs with h2 | h2 | h2
        · exact Or.inl (by rw [ha, h2])
        · refine Or.inr (Or.inl ?_)
          unfold lexLt
          rw [if_neg (by rw [h]; exact lt_irrefl _),
            if_neg (by rw [h]; exact lt_irrefl _)]
          exact h2
        · refine Or.inr (Or.inr ?_)
          unfold lexLt
          rw [if_neg (by rw [h]; exact lt_irrefl _),
            if_neg (by rw [h]; exact lt_irrefl _)]
          exact h2
      · exact Or.inr (Or.inr (by unfold lexLt; rw [if_pos h]))

/-- The name table's keys are in strictly ascending lexicographic order. -/
def keysSorted (m : List (List Char × Nat)) : Prop :=
  m.Pairwise (fun x y => lexLt x.1 y.1 = true)

theorem mem_binsert : ∀ (m : List (List Char × Nat)) (k : List Char) (v : Nat)
    (x : List Char × Nat), x ∈ binsert k v m → x = (k, v) ∨ x ∈ m := by
  intro m k v x
  induction m with
  | nil =>
    intro h
    simp [binsert] at h
    exact Or.inl h
  | cons p rest ih =>
    intro h
    obtain ⟨k', v'⟩ := p
    unfold binsert at h
    by_cases h1 : lexLt k k' = true
    · rw [if_pos h1] at h
      rcases List.mem_cons.mp h with h2 | h2
      · exact Or.inl h2
      · exact Or.inr h2
    · rw [if_neg h1] at h
      by_cases h2 : k = k'
      · rw [if_pos h2] at h
        rcases List.mem_cons.mp h with h3 | h3
        · exact Or.inl h3
        · exact Or.inr (List.mem_cons_of_mem _ h3)
      · rw [if_neg h2] at h
        rcases List.mem_cons.mp h with h3 | h3
        · exact Or.inr (by rw [h3]; exact List.mem_cons_self _ _)
        · rcases ih h3 with h4 | h4
          · exact Or.inl h4
          · exact Or.inr (List.mem_cons_of_mem _ h4)

theorem binsert_sorted : ∀ (m : List (List Char × Nat)) (k : List Char)
    (v : Nat), keysSorted m → keysSorted (binsert k v m) := by
  intro m k v
  induction m with
  | nil => intro _; simp [binsert, keysSorted]
  | cons p rest ih =>
    intro hs
    obtain ⟨k', v'⟩ := p
    rw [keysSorted, List.pairwise_cons] at hs
    obtain ⟨hall, hrest⟩ := hs
    unfold binsert
    by_cases h1 : lexLt k k' = true
    · rw [if_pos h1]
      rw [keysSorted, List.pairwise_cons]
      constructor
      · intro x hx
        rcases List.mem_cons.mp hx with h2 | h2
        · rw [h2]; exact h1
        · exact lexLt_trans _ _ _ h1 (hall x h2)
      · rw [List.pairwise_cons]
        exact ⟨hall, hrest⟩
    · rw [if_neg h1]
      by_cases h2 : k = k'
      · rw [if_pos h2]
        rw [keysSorted, List.pairwise_cons]
        refine ⟨?_, hrest⟩
        intro x hx
        rw [h2]
        exact hall x hx
      · rw [if_neg h2]
        rw [keysSorted, List.pairwise_cons]
        refine ⟨?_, ih hrest⟩
        intro x hx
        rcases mem_binsert rest k v x hx with h3 | h3
        · rw [h3]
          rcases lexLt_total k' k with h4 | h4 | h4
          · exact absurd h4.symm h2
          · exact h4
          · exact absurd h4 h1
        · exact hall x h3

theorem buildNamesGo_sorted (aliasMap : List Char → Option (List Char)) :
    ∀ (caps : List (Option (List Char))) (i : Nat)
      (m : List (List Char × Nat)),
    keysSorted m → keysSorted (buildNamesGo aliasMap i caps m) := by
  intro caps
  induction caps with
  | nil => intro i m hm; exact hm
  | cons o rest ih =>
    intro i m hm
    unfold buildNamesGo
    cases o with
    | none => exact ih (i + 1) m hm
    | some n => exact ih (i + 1) _ (binsert_sorted m _ i hm)

theorem buildNames_sorted (aliasMap : List Char → Option (List Char))
    (capNames : List (Option (List Char))) :
    keysSorted (buildNames aliasMap capNames) :=
  buildNamesGo_sorted aliasMap capNames 0 [] (by simp [keysSorted])

theorem matchesIter_keys_sublist (names : List (List Char × Nat))
    (captures : Nat → Option (List Char)) :
    ((matchesIter names captures).map Prod.fst).Sublist
      (captureNames names) := by
  induction names with
  | nil => simp [matchesIter, captureNames]
  | cons p rest ih =>
    cases hc : captures p.2 with
    | none =>
      simp only [matchesIter, captureNames, List.filterMap_cons, hc,
        List.map_cons] at ih ⊢
      exact ih.cons _
    | some m =>
      simp only [matchesIter, captureNames, List.filterMap_cons, hc,
        Option.map_some', List.map_cons] at ih ⊢
      exact ih.cons₂ _


/-! ### Last-occurrence-wins lookup -/

theorem lookupA_binsert (m : List (List Char × Nat)) (k k0 : List Char)
    (v : Nat) :
    lookupA (binsert k v m) k0 = if k = k0 then some v else lookupA m k0 := by
  induction m with
  | nil => simp [binsert, lookupA]
  | cons p rest ih =>
    obtain ⟨k', v'⟩ := p
    unfold binsert
    by_cases h1 : lexLt k k' = true
    · rw [if_pos h1]
      by_cases h : k = k0
      · simp [lookupA, h]
      · simp [lookupA, h]
    · rw [if_neg h1]
      by_cases h2 : k = k'
      · rw [if_pos h2]
        by_cases h : k = k0
        · simp [lookupA, h]
        · subst h2
          simp [lookupA, h]
      · rw [if_neg h2]
        by_cases h3 : k' = k0
        · subst h3
          have hne : ¬ k = k' := h2
          simp [lookupA, if_neg hne, hne]
        · simp only [lookupA, if_neg h3]
          exact ih


/-- Accumulator walk over the backend's capture-name list: the accumulator
holds the index currently recorded for user key `k`, and each later group
resolving to `k` overwrites it — "largest index wins". -/
def lastMatchIdxGo (aliasMap : List Char → Option (List Char))
    (k : List Char) : Option Nat → Nat → List (Option (List Char)) → Option Nat
  | acc, _, [] => acc
  | acc, i, optName :: rest =>
    lastMatchIdxGo aliasMap k
      (match optName with
       | some n => if resolveName aliasMap n = k then some i else acc
       | none => acc) (i + 1) rest

/-- The index the adapter ends up recording for user key `k`. -/
def lastMatchIdx (aliasMap : List Char → Option (List Char)) (k : List Char)
    (caps : List (Option (List Char))) : Option Nat :=
  lastMatchIdxGo aliasMap k none 0 caps

theorem buildNamesGo_lookup (aliasMap : List Char → Option (List Char))
    (k : List Char) :
    ∀ (caps : List (Option (List Char))) (i : Nat)
      (m : List (List Char × Nat)),
    lookupA (buildNamesGo aliasMap i caps m) k =
      lastMatchIdxGo aliasMap k (lookupA m k) i caps := by
  intro caps
  induction caps with
  | nil => intro i m; rfl
  | cons o rest ih =>
    intro i m
    unfold buildNamesGo lastMatchIdxGo
    cases o with
    | none => exact ih (i + 1) m
    | some n =>
      dsimp only
      rw [ih (i + 1) (binsert (resolveName aliasMap n) i m), lookupA_binsert]

theorem buildNames_lookup (aliasMap : List Char → Option (List Char))
    (k : List Char) (caps : List (Option (List Char))) :
    lookupA (buildNames aliasMap caps) k = lastMatchIdx aliasMap k caps :=
  buildNamesGo_lookup aliasMap k caps 0 []

theorem lastMatchIdxGo_acc_or_ge (aliasMap : List Char → Option (List Char))
    (k : List Char) :
    ∀ (caps : List (Option (List Char))) (acc : Option Nat) (i j : Nat),
    lastMatchIdxGo aliasMap k acc i caps = some j →
    acc = some j ∨ i ≤ j := by
  intro caps
  induction caps with
  | nil => intro acc i j h; exact Or.inl h
  | cons o rest ih =>
    intro acc i j h
    unfold lastMatchIdxGo at h
    rcases ih _ (i + 1) j h with hacc | hge
    · cases o with
      | none => exact Or.inl hacc
      | some n =>
        dsimp only at hacc
        by_cases hres : resolveName aliasMap n = k
        · rw [if_pos hres] at hacc
          simp only [Option.some.injEq] at hacc
          omega
        · rw [if_neg hres] at hacc
          exact Or.inl hacc
    · exact Or.inr (by omega)

theorem lastMatchIdxGo_largest (aliasMap : List Char → Option (List Char))
    (k : List Char) :
    ∀ (caps : List (Option (List Char))) (acc : Option Nat) (i j : Nat),
    lastMatchIdxGo aliasMap k acc i caps = some j →
    ∀ (off : Nat) (n : List Char), caps[off]? = some (some n) →
      resolveName aliasMap n = k → i + off ≤ j := by
  intro caps
  induction caps with
  | nil => intro acc i j _ off n hoff; simp at hoff
  | cons o rest ih =>
    intro acc i j h off n hoff hres
    unfold lastMatchIdxGo at h
    cases off with
    | zero =>
      simp only [List.getElem?_cons_zero, Option.some.injEq] at hoff
      subst hoff
      dsimp only at h
      rw [if_pos hres] at h
      rcases lastMatchIdxGo_acc_or_ge aliasMap k rest (some i) (i + 1) j h with
        hacc | hge
      · simp only [Option.some.injEq] at hacc
        omega
      · omega
    | succ off' =>
      simp only [List.getElem?_cons_succ] at hoff
      have := ih _ (i + 1) j h off' n hoff hres
      omega

theorem lastMatchIdxGo_found (aliasMap : List Char → Option (List Char))
    (k : List Char) :
    ∀ (caps : List (Option (List Char))) (acc : Option Nat) (i j : Nat),
    lastMatchIdxGo aliasMap k acc i caps = some j →
    acc = some j ∨
      ∃ (off : Nat) (n : List Char), caps[off]? = some (some n) ∧
        resolveName aliasMap n = k ∧ j = i + off := by
  intro caps
  induction caps with
  | nil => intro acc i j h; exact Or.inl h
  | cons o rest ih =>
    intro acc i j h
    unfold lastMatchIdxGo at h
    rcases ih _ (i + 1) j h with hacc | ⟨off, n, hoff, hres, hj⟩
    · cases o with
      | none => exact Or.inl hacc
      | some n =>
        dsimp only at hacc
        by_cases hres : resolveName aliasMap n = k
        · rw [if_pos hres] at hacc
          simp only [Option.some.injEq] at hacc
          exact Or.inr ⟨0, n, by simp, hres, by omega⟩
        · rw [if_neg hres] at hacc
          exact Or.inl hacc
    · exact Or.inr ⟨off + 1, n, by simpa using hoff, hres, by omega⟩


/-! ## Concrete instances used by the claims -/

def dictC3 : List Char → Option (List Char) :=
  fun k => if k = "P".data then some "%\x7bname\x7d".data else none

def srcC3 : List Char := "%\x7bname=xyz\x7d%\x7bP\x7d".data

def dictC4 : List Char → Option (List Char) :=
  fun k => if k = "A".data then some "x".data else none

def srcC4 : List Char := "%\x7bA\x7d%\x7bA\x7d%\x7bA\x7d".data

def outC4 : CompileOut :=
  ⟨"(?<_n_0>x)(?<_n_1>x)(?<_n_2>x)".data,
    [("_n_0".data, "A".data), ("_n_1".data, "A[1]".data),
     ("_n_2".data, "A[2]".data)], [],
    [("A".data, "A".data), ("A".data, "A[1]".data), ("A".data, "A[2]".data)]⟩

def dictC5 : List Char → Option (List Char) :=
  fun k => if k = "GREEDYDATA".data then some ".*".data else none

def srcC5 : List Char := "(?<capture>\\w+) %\x7bGREEDYDATA:capture\x7d".data

def aliasesC5 : List (List Char × List Char) := [("_n_0".data, "capture".data)]

/-- The capture-name list the backend reports for the flat regex
`(?<capture>\w+) (?<_n_0>.*)` per the backend contract: group 0 is the
anonymous whole match, then the named groups in order. -/
def capsC5 : List (Option (List Char)) :=
  [none, some "capture".data, some "_n_0".data]

/-- The spans the backend reports when that regex matches `word1 word2`:
`\w+` takes `word1`, `.*` takes `word2`. -/
def capturesC5 : Nat → Option (List Char) :=
  fun i =>
    if i = 0 then some "word1 word2".data
    else if i = 1 then some "word1".data
    else if i = 2 then some "word2".data
    else none

def srcC6 : List Char := "a%\x7bB\x7dc".data

def toksC6 : List GrokComponent :=
  [.regularExpression (0, 1) "a".data,
   .grokPattern (1, 5) "%\x7bB\x7d".data "B".data [] [] [],
   .regularExpression (5, 6) "c".data]

def ancestorFrameC3 : Frame := ⟨[], [("name".data, "xyz".data)]⟩

def topFrameC3 : Frame :=
  ⟨[.grokPattern (0, 8) "%\x7bname\x7d".data "name".data [] [] []], []⟩

def stateC3 : CState := ⟨[topFrameC3, ancestorFrameC3], [], [], [], [], 0, []⟩

def stateC8 : CState :=
  ⟨[⟨[.regularExpression (0, 1) "x".data], []⟩], "(?<_n_0>".data,
    [("_n_0".data, "A".data)], [("A".data, 1)], [], 1,
    [("A".data, "A".data)]⟩

theorem emitNamed_ok_fields {s s' : CState}
    {matchName origKey extract : List Char}
    (h : emitNamed s matchName origKey extract = .ok s') :
    s'.out = s.out ++ "(?<".data ++ matchName ++ ">".data ∧
    (∃ key, lookupA s'.aliases matchName = some key ∧
      s'.assigns = s.assigns ++ [(origKey, key)]) ∧
    s'.index = s.index + 1 := by
  unfold emitNamed at h
  dsimp only at h
  split at h
  · exact Except.noConfusion h
  · simp only [Except.ok.injEq] at h
    subst h
    exact ⟨rfl, ⟨_, lookupA_setA_self _ _ _, rfl⟩, rfl⟩

/-! ## The claims -/

/-- C1: for every compiled pattern the user-visible iteration order is the
lexicographic order of user-facing keys: the adapter keeps the name table in
a `BTreeMap` keyed by the user-facing key, so `capture_names()` (the key
list) is strictly lexicographically sorted, and `Matches::iter()` emits its
`(key, substring)` pairs in that same order — its key sequence is a sublist
of `capture_names()` — for every backend capture-name list (hence regardless
of the source order of the placeholders) and every match result. -/
theorem claim1_capture_order (aliasMap : List Char → Option (List Char))
    (capNames : List (Option (List Char)))
    (captures : Nat → Option (List Char)) :
    (captureNames (buildNames aliasMap capNames)).Pairwise
      (fun a b => lexLt a b = true) ∧
    ((matchesIter (buildNames aliasMap capNames) captures).map
        Prod.fst).Sublist (captureNames (buildNames aliasMap capNames)) := by
  constructor
  · have hs := buildNames_sorted aliasMap capNames
    rw [keysSorted] at hs
    exact List.pairwise_map.mpr hs
  · exact matchesIter_keys_sublist _ _

/-- C2: the expansion depth of a compilation is the maximal work-item stack
depth observed after each step of the unguarded expansion loop (`runFree`).
Whenever the unguarded expansion of a source terminates successfully (a
valid dictionary and well-formed source), the guarded `compile_regex`
succeeds with the same output if that depth is at most 1024, and fails with
`RecursionTooDeep` if it strictly exceeds 1024 — `MAX_RECURSION = 1024`,
checked against the work-item stack after each step. -/
theorem claim2_recursion_bound (patterns : List Char → Option (List Char))
    (ao : Bool) (fuel : Nat) (source : List Char) (out : CompileOut) (d : Nat)
    (h : runFree patterns ao fuel (initState source) = some (.ok out, d)) :
    MAX_RECURSION = 1024 ∧
    (d ≤ 1024 → compileRegex patterns ao fuel source = some (.ok out)) ∧
    (1024 < d → compileRegex patterns ao fuel source =
      some (.error .recursionTooDeep)) :=
  ⟨rfl, (runFree_runCompile patterns ao fuel (initState source) out d h).1,
    (runFree_runCompile patterns ao fuel (initState source) out d h).2⟩

/-- C2 (witness): a one-literal source expands with depth 1 and compiles. -/
theorem claim2_witness :
    MAX_RECURSION = 1024 ∧
    (1 ≤ 1024 → compileRegex (fun _ => none) false 10 "a".data =
      some (.ok ⟨"a".data, [], [], []⟩)) ∧
    (1024 < 1 → compileRegex (fun _ => none) false 10 "a".data =
      some (.error .recursionTooDeep)) :=
  claim2_recursion_bound (fun _ => none) false 10 "a".data
    ⟨"a".data, [], [], []⟩ 1 rfl

/-- C3 (counterexample): the claim as stated requires a name recorded in an
ancestor frame's override map to be used.  Compiling
`%\x7bname=xyz\x7d%\x7bP\x7d` with dictionary `P ↦ %\x7bname\x7d` puts
`name ↦ xyz` in the top-level (ancestor) frame's map, yet the expansion of
`P`'s body fails with `DefinitionNotFound("name")`: ancestor maps are not
consulted, so the claimed expansion to `xyz` does not happen. -/
theorem claim3_counterexample :
    compileRegex dictC3 false 30 srcC3 =
      some (.error (.definitionNotFound "name".data)) := rfl

/-- C3 (amended): a placeholder with no inline definition whose name is in
the CURRENT frame's override map expands to that definition; only when the
current frame's map lacks the name is the dictionary consulted (ancestor
frames' maps are never consulted), and if the dictionary also lacks it the
compilation fails with `DefinitionNotFound` carrying that name.  The last
conjunct states this at the loop level: the step fails whenever the top
frame's map and the dictionary miss, whatever the ancestor frames hold. -/
theorem claim3_override_scope (patterns : List Char → Option (List Char))
    (ov : List (List Char × List Char)) (name : List Char) :
    (∀ body, lookupA ov name = some body →
      resolveBody patterns ov name [] = .ok (body, ov)) ∧
    (lookupA ov name = none → ∀ body, patterns name = some body →
      resolveBody patterns ov name [] = .ok (body, ov)) ∧
    (lookupA ov name = none → patterns name = none →
      resolveBody patterns ov name [] = .error (.definitionNotFound name)) ∧
    (∀ (s : CState) (frame : Frame) (stackRest : List Frame)
       (rg : Nat × Nat) (pat aliasName extract : List Char)
       (toksRest : List GrokComponent) (ao : Bool),
      s.stack = frame :: stackRest →
      frame.toks = .grokPattern rg pat name aliasName extract [] :: toksRest →
      lookupA frame.overrides name = none → patterns name = none →
      compileStep0 patterns ao s = .err (.definitionNotFound name)) := by
  refine ⟨?_, ?_, ?_, ?_⟩
  · intro body h
    unfold resolveBody
    rw [if_neg (by simp), h]
  · intro h1 body h2
    unfold resolveBody
    rw [if_neg (by simp), h1, h2]
  · intro h1 h2
    unfold resolveBody
    rw [if_neg (by simp), h1, h2]
  · intro s frame stackRest rg pat aliasName extract toksRest ao hst htoks h1 h2
    unfold compileStep0
    rw [hst]
    dsimp only
    rw [htoks]
    dsimp only
    unfold resolveBody
    rw [if_neg (by simp), h1, h2]

/-- C3 (witness): the current frame's map is used when it has the name; and
the loop step fails with `DefinitionNotFound` although the ancestor frame
below holds `name ↦ xyz`. -/
theorem claim3_witness :
    resolveBody (fun _ => none) [("a".data, "x".data)] "a".data [] =
      .ok ("x".data, [("a".data, "x".data)]) ∧
    compileStep0 (fun _ => none) false stateC3 =
      .err (.definitionNotFound "name".data) :=
  ⟨(claim3_override_scope (fun _ => none) [("a".data, "x".data)] "a".data).1
      "x".data rfl,
    (claim3_override_scope (fun _ => none) [] "name".data).2.2.2 stateC3
      topFrameC3 [ancestorFrameC3] (0, 8) "%\x7bname\x7d".data [] [] [] false
      rfl rfl rfl rfl⟩

/-- C4: in every successful compile, for every raw key the user-facing keys
assigned to the placeholders carrying that raw key, in processing order
(the ghost `assigns` trace), are exactly `rawKey, rawKey[1], …,
rawKey[k-1]`: position `i` gets `resolvedKey rawKey i`, which is `rawKey`
itself at `i = 0` and `rawKey ++ "[" ++ i ++ "]"` afterwards. -/
theorem claim4_duplicate_keys (patterns : List Char → Option (List Char))
    (ao : Bool) (fuel : Nat) (source : List Char) (out : CompileOut)
    (h : compileRegex patterns ao fuel source = some (.ok out)) :
    ∀ rawKey : List Char,
      keysFor rawKey out.assigns =
        (List.range (countFor rawKey out.assigns)).map (resolvedKey rawKey) ∧
      resolvedKey rawKey 0 = rawKey := by
  intro rawKey
  refine ⟨?_, rfl⟩
  exact runCompile_keysFor patterns ao fuel (initState source) out h
    (aliasInv_init source) rawKey

/-- C4 (witness): three placeholders `%\x7bA\x7d` produce keys
`A, A[1], A[2]`. -/
theorem claim4_witness :
    keysFor "A".data outC4.assigns =
      (List.range (countFor "A".data outC4.assigns)).map
        (resolvedKey "A".data) ∧
    resolvedKey "A".data 0 = "A".data :=
  claim4_duplicate_keys dictC4 false 100 srcC4 outC4 rfl "A".data

/-- C5: the pcre2/fancy-regex adapter resolves each user-facing key to the
LARGEST backend index among the groups whose (alias-mapped) name equals
that key: the recorded index is a matching index and bounds every matching
index.  In particular, compiling `(?<capture>\w+) %\x7bGREEDYDATA:capture\x7d`
with `alias_only = true` yields the flat regex `(?<capture>\w+) (?<_n_0>.*)`
with alias `_n_0 ↦ capture`; against the backend-reported names and the
spans of matching `word1 word2`, `get("capture")` is `word2` (the last
occurrence wins). -/
theorem claim5_largest_index_wins :
    (∀ (aliasMap : List Char → Option (List Char))
       (caps : List (Option (List Char))) (k : List Char) (j : Nat),
      lookupA (buildNames aliasMap caps) k = some j →
      (∀ (off : Nat) (n : List Char), caps[off]? = some (some n) →
        resolveName aliasMap n = k → off ≤ j) ∧
      (∃ (off : Nat) (n : List Char), caps[off]? = some (some n) ∧
        resolveName aliasMap n = k ∧ j = off)) ∧
    compileRegex dictC5 true 50 srcC5 =
      some (.ok ⟨"(?<capture>\\w+) (?<_n_0>.*)".data, aliasesC5, [],
        [("capture".data, "capture".data)]⟩) ∧
    lookupA (buildNames (fun n => lookupA aliasesC5 n) capsC5)
      "capture".data = some 2 ∧
    matchesGet (buildNames (fun n => lookupA aliasesC5 n) capsC5) capturesC5
      "capture".data = some "word2".data := by
  refine ⟨?_, rfl, rfl, rfl⟩
  intro aliasMap caps k j hlk
  rw [buildNames_lookup] at hlk
  unfold lastMatchIdx at hlk
  constructor
  · intro off n hoff hres
    have := lastMatchIdxGo_largest aliasMap k caps none 0 j hlk off n hoff hres
    omega
  · rcases lastMatchIdxGo_found aliasMap k caps none 0 j hlk with
      hacc | ⟨off, n, h1, h2, h3⟩
    · exact Option.noConfusion hacc
    · exact ⟨off, n, h1, h2, by omega⟩

/-- C5 (witness): the general largest-index property applied to the
scenario's backend data. -/
theorem claim5_witness :
    (∀ (off : Nat) (n : List Char), capsC5[off]? = some (some n) →
      resolveName (fun n0 => lookupA aliasesC5 n0) n = "capture".data →
      off ≤ 2) ∧
    (∃ (off : Nat) (n : List Char), capsC5[off]? = some (some n) ∧
      resolveName (fun n0 => lookupA aliasesC5 n0) n = "capture".data ∧
      2 = off) :=
  claim5_largest_index_wins.1 (fun n0 => lookupA aliasesC5 n0) capsC5
    "capture".data 2 rfl

/-- C6 (counterexample): on the source `%\x7b` the scanner emits a single
error token, which carries no range and no text; the concatenation of the
emitted tokens' ranges is empty and does not reproduce the source, so the
partition fails for this source. -/
theorem claim6_counterexample :
    grokSplit "%\x7b".data = some [.patternError .invalidPattern] ∧
    joinTexts [.patternError .invalidPattern] = [] ∧
    "%\x7b".data ≠ [] ∧
    ¬ partitionFrom 0 [GrokComponent.patternError .invalidPattern]
      "%\x7b".data := by
  refine ⟨rfl, rfl, by decide, ?_⟩
  intro hpart
  obtain ⟨r, h1, _, h3⟩ := hpart
  have hr : r = [] := h3
  rw [hr] at h1
  simp [GrokComponent.text] at h1

/-- C6 (amended): for every source on which the scanner emits no error
token, the tokens tile the source: concatenating their texts reproduces it,
their byte ranges chain contiguously from 0 in emission order with each
range exactly the byte span of its text (`partitionFrom`), and each token's
carried text equals the byte slice of the source at its range. -/
theorem claim6_partition (l : List Char) (toks : List GrokComponent)
    (h : grokSplit l = some toks) (hne : ∀ t ∈ toks, t.isError = false) :
    joinTexts toks = l ∧ partitionFrom 0 toks l ∧
    ∀ t ∈ toks, t.text = sliceBytes l t.range.1 t.range.2 := by
  have hp := grokSplitGo_partition (l.length + 1) 0 l toks h hne
  refine ⟨partitionFrom_join toks 0 l hp, hp, ?_⟩
  intro t ht
  have hs := partitionFrom_slice toks [] l hp t ht
  simpa using hs

/-- C6 (witness): the partition at the error-free source `a%\x7bB\x7dc`. -/
theorem claim6_witness :
    joinTexts toksC6 = srcC6 ∧ partitionFrom 0 toksC6 srcC6 ∧
    ∀ t ∈ toksC6, t.text = sliceBytes srcC6 t.range.1 t.range.2 :=
  claim6_partition srcC6 toksC6 rfl (by decide)

/-- C7: the four malformed sources each fail to compile with a
`GenericCompilationFailure` (carrying the debug rendering of the scanner
error), for every dictionary and either `alias_only` mode. -/
theorem claim7_malformed (patterns : List Char → Option (List Char))
    (ao : Bool) :
    compile patterns ao 50 "%\x7bname:\x7d".data =
      some (.error (.genericCompilationFailure
        "InvalidPatternDefinition".data)) ∧
    compile patterns ao 50 "%\x7bname=".data =
      some (.error (.genericCompilationFailure
        "InvalidPatternDefinition".data)) ∧
    compile patterns ao 50 "%\x7bname:a:b:c\x7d".data =
      some (.error (.genericCompilationFailure "InvalidPattern".data)) ∧
    compile patterns ao 50 "%\x7bna.me:a:b\x7d".data =
      some (.error (.genericCompilationFailure
        ("InvalidCharacter(".data ++ '\'' :: '.' :: '\'' :: ")".data))) :=
  ⟨rfl, rfl, rfl, rfl⟩

/-- C8: with `with_alias_only = true` a placeholder with empty ALIAS
contributes the non-capturing opener `(?:` to the flat regex and changes
nothing else — in particular the name table gains no entry; in every other
case (`with_alias_only = false`, or a non-empty ALIAS) the placeholder
becomes a named capture `(?<_n_k>`, the name table gains an entry under the
fresh synthetic name, and its raw user-facing key is the ALIAS when
non-empty, else the NAME. -/
theorem claim8_alias_only (s : CState) (name aliasName extract : List Char) :
    (emitGroup true s name [] extract =
      .ok { s with out := s.out ++ "(?:".data }) ∧
    (∀ (ao : Bool) (s' : CState), ao = false ∨ aliasName ≠ [] →
      emitGroup ao s name aliasName extract = .ok s' →
      ∃ key,
        s'.out = s.out ++ "(?<".data ++ ("_n_".data ++ natChars s.index) ++
          ">".data ∧
        lookupA s'.aliases ("_n_".data ++ natChars s.index) = some key ∧
        s'.assigns = s.assigns ++
          [((if aliasName = [] then name else aliasName), key)] ∧
        s'.index = s.index + 1) := by
  constructor
  · unfold emitGroup
    rw [if_pos ⟨rfl, rfl⟩]
  · intro ao s' hcase h
    unfold emitGroup at h
    have hcond : ¬ (ao = true ∧ aliasName = []) := by
      rcases hcase with hc | hc
      · intro hand
        rw [hc] at hand
        exact Bool.noConfusion hand.1
      · intro hand
        exact hc hand.2
    rw [if_neg hcond] at h
    obtain ⟨ho, ⟨key, hk1, hk2⟩, hi⟩ := emitNamed_ok_fields h
    exact ⟨key, ho, hk1, hk2, hi⟩

/-- C8 (witness): a named capture for `%\x7bA\x7d` with
`with_alias_only = false`. -/
theorem claim8_witness :
    ∃ key,
      stateC8.out = (initState "x".data).out ++ "(?<".data ++
        ("_n_".data ++ natChars (initState "x".data).index) ++ ">".data ∧
      lookupA stateC8.aliases
        ("_n_".data ++ natChars (initState "x".data).index) = some key ∧
      stateC8.assigns = (initState "x".data).assigns ++
        [((if ([] : List Char) = [] then "A".data else []), key)] ∧
      stateC8.index = (initState "x".data).index + 1 :=
  (claim8_alias_only (initState "x".data) "A".data [] []).2 false stateC8
    (Or.inl rfl) rfl

/-- C9: matching never surfaces an error: both engine adapters return
`Option` (no error value in the return type), a backend error during the
search is converted to `None`, a backend "no match" is `None`, and a match
is returned as `Some`; `Pattern::match_against` preserves that; a
non-`None` result can only come from a successful backend match. -/
theorem claim9_match_errors_trapped {ε α : Type} :
    (∀ e : ε, onigMatchAgainst (α := α) (.error e) = none) ∧
    (onigMatchAgainst (ε := ε) (α := α) (.ok none) = none) ∧
    (∀ m : α, onigMatchAgainst (ε := ε) (.ok (some m)) = some m) ∧
    (∀ e : ε, fancyRegexMatchAgainst (α := α) (.error e) = none) ∧
    (fancyRegexMatchAgainst (ε := ε) (α := α) (.ok none) = none) ∧
    (∀ m : α, fancyRegexMatchAgainst (ε := ε) (.ok (some m)) = some m) ∧
    (∀ r : Except ε (Option α), onigMatchAgainst r ≠ none →
      ∃ m, r = .ok (some m) ∧ onigMatchAgainst r = some m) ∧
    (∀ r : Except ε (Option α), patternMatchAgainst r = onigMatchAgainst r)
    := by
  refine ⟨fun e => rfl, rfl, fun m => rfl, fun e => rfl, rfl, fun m => rfl,
    ?_, ?_⟩
  · intro r h
    match r with
    | .ok (some m) => exact ⟨m, rfl, rfl⟩
    | .ok none => exact absurd rfl h
    | .error e => exact absurd rfl h
  · intro r
    unfold patternMatchAgainst
    cases onigMatchAgainst r <;> rfl

/-- C9 (witness): the implication conjunct at a successful match. -/
theorem claim9_witness :
    ∃ m, (Except.ok (some 7) : Except Unit (Option Nat)) = .ok (some m) ∧
      onigMatchAgainst (Except.ok (some 7) : Except Unit (Option Nat)) =
        some m :=
  (claim9_match_errors_trapped (ε := Unit) (α := Nat)).2.2.2.2.2.2.1
    (Except.ok (some 7)) (by simp [onigMatchAgainst])

/-- C10: the scanner is total: for every input (including `%`, `%\x7b` and
unterminated placeholders) the iteration terminates with a finite token
sequence — at most one token per input character — and never panics: the
whole split never returns the panic marker, because after a word is munched
the input always still holds the peeked terminator, so the `unwrap()`
cannot fail. -/
theorem claim10_scanner_total (l : List Char) :
    (∃ toks, grokSplit l = some toks ∧ toks.length ≤ l.length) ∧
    ∀ pos, tryNext pos l ≠ ScanRes.panicked :=
  ⟨grokSplit_total l, fun pos => (tryNext_spec pos l).1⟩

end Grok
